import Mathlib

/-!
Verification of the data-deficient plant-search scoring-and-validation engine.

Shallow embedding of the core code of the repository:
* `src/finder/methods.py` — `SimilarityMethod` (fit/predict, cosine and
  euclidean variants), `ClassifierMethod` (fit/predict, KNN with distance
  weights), and the spatial pseudo-negative sampler `_generate_negatives`;
* `src/experiment.py` — the grid-variant background sampler
  `sample_background_points`, the pairwise AUC estimator `compute_auc`,
  and the training-size selection of `run_species_experiment`;
* `src/finder/pipeline.py` — the auto method selection of `find_candidates`.

Machine floats are modelled as real numbers (exact arithmetic); numpy
row-wise operations become `List.map`; the batch loop of `predict` becomes
an explicit chunking of the input row list; Python exceptions become
`Except.error`; randomness is made explicit as an input stream of draws.
Division is the total real division of Lean (x / 0 = 0); the one place this
collapses a float NaN path of the program — the unguarded centroid
normalization of the cosine fit — is recorded explicitly by
`cosine_fit_divides_by_zero_norm`, which proves the divisor there is
identically zero.
The excluded-from-scope `EmbeddingMosaic` accessors (`coords_to_pixel`,
`pixel_to_coords`, per-pixel embeddings) are abstract function parameters,
per the external-interface section of the spec.
-/

namespace PlantSearch

open scoped Classical

/-- A feature vector of dimension `d` (one row of a numpy embeddings array). -/
def Vec (d : ℕ) : Type := Fin d → ℝ

/-- Dot product of two feature vectors (`a @ b` on 1-D arrays). -/
noncomputable def dot {d : ℕ} (x y : Vec d) : ℝ := ∑ j, x j * y j

/-- Euclidean norm (`np.linalg.norm`). -/
noncomputable def norm2 {d : ℕ} (x : Vec d) : ℝ := Real.sqrt (∑ j, x j ^ 2)

/-- Componentwise difference of two vectors. -/
def vsub {d : ℕ} (x y : Vec d) : Vec d := fun j => x j - y j

/-- The all-zeros vector. -/
def vzero (d : ℕ) : Vec d := fun _ => 0

/-- Per-feature mean of a list of rows (`arr.mean(axis=0)`). -/
noncomputable def listMean {d : ℕ} (l : List (Vec d)) : Vec d :=
  fun j => ((l.map fun v => v j).sum) / l.length

/-- Per-feature scale of `sklearn.preprocessing.StandardScaler` fitted on `l`:
the population standard deviation, with zeros replaced by 1. -/
noncomputable def listScale {d : ℕ} (l : List (Vec d)) : Vec d :=
  fun j =>
    let s := Real.sqrt (((l.map fun v => (v j - listMean l j) ^ 2).sum) / l.length)
    if s = 0 then 1 else s

/-- Transform of `StandardScaler` applied to one row, given fitted mean and scale. -/
noncomputable def standardizeWith {d : ℕ} (mu sigma : Vec d) (x : Vec d) : Vec d :=
  fun j => (x j - mu j) / sigma j

/-- Row L2-normalization used by the cosine branch of
`SimilarityMethod.predict`: `norms[norms == 0] = 1; batch / norms`. -/
noncomputable def unitize {d : ℕ} (x : Vec d) : Vec d :=
  fun j => x j / (if norm2 x = 0 then 1 else norm2 x)

/-- Splits a list into consecutive chunks: `chunksAux b fuel xs` with
`fuel ≥ xs.length` mirrors `for i in range(0, n, b)` slicing for `b ≥ 1`. -/
def chunksAux {α : Type*} (b : ℕ) : ℕ → List α → List (List α)
  | _, [] => []
  | 0, _ :: _ => []
  | fuel + 1, x :: t => (x :: t).take b :: chunksAux b fuel ((x :: t).drop b)

/-- The batch decomposition `all_embeddings[i:i+b]` for `i = 0, b, 2b, ...`. -/
def chunks {α : Type*} (b : ℕ) (xs : List α) : List (List α) :=
  chunksAux b xs.length xs

/-- Fitted state of `SimilarityMethod`: the `metric` string, the fitted
`StandardScaler` (mean and scale) and the `_centroid`. -/
structure SimState (d : ℕ) where
  metric : String
  mean : Vec d
  scale : Vec d
  centroid : Vec d

/-- Embedding of `SimilarityMethod.fit`: standardize the positives with a scaler fitted on
them, average to a centroid, and for the cosine metric divide the centroid by
its norm. -/
noncomputable def simFit {d : ℕ} (metric : String) (pos : List (Vec d)) : SimState d :=
  let mu := listMean pos
  let sigma := listScale pos
  let normalized := pos.map (standardizeWith mu sigma)
  let m := listMean normalized
  let c := if metric = ("cosine") then (fun j => m j / norm2 m) else m
  ⟨metric, mu, sigma, c⟩

/-- One batch of `SimilarityMethod.predict`: standardize the rows, then either
the cosine branch (row-normalize, dot with centroid, remap `(s+1)/2`) or the
euclidean branch (distance to centroid, `1 - d/max_dist` with the per-batch
maximum, substituting 1 when the maximum is 0). -/
noncomputable def simBatch {d : ℕ} (s : SimState d) (batch : List (Vec d)) : List ℝ :=
  let bn := batch.map (standardizeWith s.mean s.scale)
  if s.metric = ("cosine") then
    bn.map (fun x => (dot (unitize x) s.centroid + 1) / 2)
  else
    let ds := bn.map (fun x => norm2 (vsub x s.centroid))
    let mx := ds.foldr max 0
    let m := if 0 < mx then mx else 1
    ds.map (fun dd => 1 - dd / m)

/-- The per-row score of the cosine branch of `SimilarityMethod.predict`:
standardize, L2-normalize with the zero-norm guard, dot with the centroid,
and remap from [-1, 1] to [0, 1]. -/
noncomputable def cosineRow {d : ℕ} (s : SimState d) (x : Vec d) : ℝ :=
  (dot (unitize (standardizeWith s.mean s.scale x)) s.centroid + 1) / 2

/-- Embedding of `SimilarityMethod.predict`: the concatenation of the per-batch scores over
the batch decomposition of the input rows. -/
noncomputable def simPredict {d : ℕ} (s : SimState d) (X : List (Vec d)) (batchSize : ℕ) :
    List ℝ :=
  ((chunks batchSize X).map (simBatch s)).flatten

/-- A `SimilarityMethod` instance: `_centroid`/`_scaler` start as `None`. -/
structure SimMethodData (d : ℕ) where
  metric : String
  fitted : Option (SimState d)

/-- Embedding of the `SimilarityMethod` constructor. -/
def simNew (d : ℕ) (metric : String) : SimMethodData d := ⟨metric, none⟩

/-- Embedding of `SimilarityMethod.fit` with its zero-positives guard. -/
noncomputable def simFitE {d : ℕ} (m : SimMethodData d) (pos : List (Vec d)) :
    Except String (SimMethodData d) :=
  if pos.length = 0 then Except.error ("Need at least 1 positive sample")
  else Except.ok ⟨m.metric, some (simFit m.metric pos)⟩

/-- Embedding of `SimilarityMethod.predict` as observed on the instance: the raised error or
the scores, together with the (never mutated) instance state. -/
noncomputable def simPredictE {d : ℕ} (m : SimMethodData d) (X : List (Vec d)) (b : ℕ) :
    Except String (List ℝ) × SimMethodData d :=
  match m.fitted with
  | none => (Except.error ("Must call fit() first"), m)
  | some s => (Except.ok (simPredict s X b), m)

/-- Fitted state of `ClassifierMethod`: the scaler fitted on the combined
positive+negative rows, the scaled training rows with their binary labels
(`True` = positive class), and the adjusted neighbor count `k`. -/
structure ClsState (d : ℕ) where
  mean : Vec d
  scale : Vec d
  train : List (Vec d × Bool)
  k : ℕ

/-- Body of `ClassifierMethod.fit`: stack positives over negatives, label them
1/0, set `k = max(1, min(n_neighbors, len(X) // 2))`, and fit the
scaler+KNN pipeline (the KNN stores the scaled rows). -/
noncomputable def clsFit {d : ℕ} (nNeighbors : ℕ) (pos neg : List (Vec d)) : ClsState d :=
  let X := pos ++ neg
  let mu := listMean X
  let sigma := listScale X
  let k := max 1 (min nNeighbors (X.length / 2))
  let scaled := X.map (standardizeWith mu sigma)
  let labels := (pos.map fun _ => true) ++ (neg.map fun _ => false)
  ⟨mu, sigma, scaled.zip labels, k⟩

/-- Embedding of `KNeighborsClassifier(weights="distance").predict_proba` for one
query: take the `k` nearest scaled training rows; if any selected neighbor is
at distance 0, those neighbors get weight 1 and the others 0, otherwise
weights are inverse distances; return the weighted fraction of positive
labels. -/
noncomputable def knnProbRow {d : ℕ} (st : ClsState d) (q : Vec d) : ℝ :=
  let qs := standardizeWith st.mean st.scale q
  let ds := st.train.map (fun p => (norm2 (vsub qs p.1), p.2))
  let sel := (List.insertionSort (fun a b : ℝ × Bool => a.1 ≤ b.1) ds).take st.k
  let w : ℝ × Bool → ℝ := fun p =>
    if ∃ r ∈ sel, r.1 = 0 then (if p.1 = 0 then 1 else 0) else (p.1)⁻¹
  ((sel.filter (fun p => p.2)).map w).sum / ((sel.map w).sum)

/-- One batch of `ClassifierMethod.predict`: `predict_proba(batch)[:, 1]`. -/
noncomputable def clsBatch {d : ℕ} (st : ClsState d) (batch : List (Vec d)) : List ℝ :=
  batch.map (knnProbRow st)

/-- Embedding of `ClassifierMethod.predict`: concatenation of per-batch positive-class
probabilities over the batch decomposition of the input rows. -/
noncomputable def clsPredict {d : ℕ} (st : ClsState d) (X : List (Vec d)) (batchSize : ℕ) :
    List ℝ :=
  ((chunks batchSize X).map (clsBatch st)).flatten

/-- A `ClassifierMethod` instance: `_model` starts as `None`. -/
structure ClsMethodData (d : ℕ) where
  nNeighbors : ℕ
  fitted : Option (ClsState d)

/-- Embedding of the `ClassifierMethod` constructor. -/
def clsNew (d : ℕ) (nNeighbors : ℕ) : ClsMethodData d := ⟨nNeighbors, none⟩

/-- Embedding of `ClassifierMethod.fit` with its guards: fewer than 2 positives is an
error, missing negatives is an error, otherwise the model is fitted. -/
noncomputable def clsFitE {d : ℕ} (m : ClsMethodData d) (pos : List (Vec d))
    (negOpt : Option (List (Vec d))) : Except String (ClsMethodData d) :=
  if pos.length < 2 then
    Except.error ("Classifier method needs at least 2 positive samples")
  else
    match negOpt with
    | none => Except.error ("Must provide negative_embeddings.")
    | some neg => Except.ok ⟨m.nNeighbors, some (clsFit m.nNeighbors pos neg)⟩

/-- Embedding of `ClassifierMethod.predict` as observed on the instance: the raised error
or the scores, together with the (never mutated) instance state. -/
noncomputable def clsPredictE {d : ℕ} (m : ClsMethodData d) (X : List (Vec d)) (b : ℕ) :
    Except String (List ℝ) × ClsMethodData d :=
  match m.fitted with
  | none => (Except.error ("Must call fit() first"), m)
  | some st => (Except.ok (clsPredict st X b), m)

/-- Planar Euclidean distance between two (lon, lat) coordinates. -/
noncomputable def euclDist (a b : ℝ × ℝ) : ℝ :=
  Real.sqrt ((a.1 - b.1) ^ 2 + (a.2 - b.2) ^ 2)

/-- The expression `dists.min()` of `_generate_negatives`: the minimum Euclidean distance
from the candidate `p` to the positive coordinates (meaningful only for a
non-empty positive list, as in the source where numpy `min` of an empty
array is an error). -/
noncomputable def minDistTo (pos : List (ℝ × ℝ)) (p : ℝ × ℝ) : ℝ :=
  match pos with
  | [] => 0
  | q :: rest => rest.foldl (fun acc r => min acc (euclDist r p)) (euclDist q p)

/-- Loop of `ClassifierMethod._generate_negatives`: each iteration consumes
one uniform draw from the stream; stop when `n_samples` negatives were
collected or the attempt budget (the fuel, `n_samples * 100`) is exhausted;
accept a draw iff its minimum distance to the positives exceeds
`min_negative_distance`. Accepted draws are NOT inserted into any exclusion
set. -/
noncomputable def genNegAux (pos : List (ℝ × ℝ)) (minDist : ℝ) (nSamples : ℕ) :
    ℕ → List (ℝ × ℝ) → List (ℝ × ℝ) → List (ℝ × ℝ)
  | 0, _, acc => acc.reverse
  | _ + 1, [], acc => acc.reverse
  | fuel + 1, dr :: rest, acc =>
    if nSamples ≤ acc.length then acc.reverse
    else if minDistTo pos dr > minDist then
      genNegAux pos minDist nSamples fuel rest (dr :: acc)
    else genNegAux pos minDist nSamples fuel rest acc

/-- Embedding of `ClassifierMethod._generate_negatives` with the seeded uniform draws made
explicit as an input stream: at most `n_samples * 100` attempts. -/
noncomputable def genNegatives (pos : List (ℝ × ℝ)) (minDist : ℝ) (nSamples : ℕ)
    (draws : List (ℝ × ℝ)) : List (ℝ × ℝ) :=
  genNegAux pos minDist nSamples (nSamples * 100) draws []

/-- Loop of `sample_background_points` (grid variant): each iteration consumes
one uniform pixel draw and one unit of the attempt budget (the fuel,
`n_points * 10`); stop when enough points were collected or the budget is
exhausted; accept a pixel iff it is not in the exclusion set and its
embedding is not the all-zero no-data sentinel, and insert every accepted
pixel into the exclusion set. Returns the accepted pixels in order. -/
noncomputable def sbpAux {d : ℕ} (emb : ℕ × ℕ → Vec d) (nPoints : ℕ) :
    ℕ → List (ℕ × ℕ) → Finset (ℕ × ℕ) → List (ℕ × ℕ) → List (ℕ × ℕ)
  | 0, _, _, acc => acc.reverse
  | _ + 1, [], _, acc => acc.reverse
  | fuel + 1, dr :: rest, excl, acc =>
    if nPoints ≤ acc.length then acc.reverse
    else if dr ∉ excl then
      (if emb dr ≠ vzero d then sbpAux emb nPoints fuel rest (insert dr excl) (dr :: acc)
       else sbpAux emb nPoints fuel rest excl acc)
    else sbpAux emb nPoints fuel rest excl acc

/-- The accepted pixels of one `sample_background_points` call. The mosaic
accessors `coords_to_pixel` (`c2p`) and the per-pixel embeddings `emb` are
abstract parameters (the `EmbeddingMosaic` class is outside the specified
core). The initial exclusion set is the pixel image of `exclude_coords`. -/
noncomputable def sbpPixels {d : ℕ} (emb : ℕ × ℕ → Vec d) (c2p : ℝ × ℝ → ℕ × ℕ)
    (nPoints : ℕ) (excludeCoords : List (ℝ × ℝ)) (draws : List (ℕ × ℕ)) : List (ℕ × ℕ) :=
  sbpAux emb nPoints (nPoints * 10) draws (excludeCoords.map c2p).toFinset []

/-- Embedding of `sample_background_points`: returns the embeddings and the (lon, lat)
coordinates of the accepted pixels, via the abstract `pixel_to_coords`
(`p2c`). -/
noncomputable def sampleBackgroundPoints {d : ℕ} (emb : ℕ × ℕ → Vec d)
    (c2p : ℝ × ℝ → ℕ × ℕ) (p2c : ℕ × ℕ → ℝ × ℝ) (nPoints : ℕ)
    (excludeCoords : List (ℝ × ℝ)) (draws : List (ℕ × ℕ)) :
    List (Vec d) × List (ℝ × ℝ) :=
  let pix := sbpPixels emb c2p nPoints excludeCoords draws
  (pix.map emb, pix.map p2c)

/-- The constant `N_POSITIVE_VALUES` of `src/experiment.py`. -/
def nPositiveValues : List ℤ := [1, 2, 5, 10, 20, 50, 100]

/-- The training sizes that `run_species_experiment` includes in the
result list of the experiment for a species with `nTotal` valid occurrences: the
loop over `N_POSITIVE_VALUES` executes `continue` when
`n_pos >= n_total - 10`. -/
def selectedSizes (nTotal : ℤ) : List ℤ :=
  nPositiveValues.filter (fun n => n < nTotal - 10)

/-- Embedding of `compute_auc`: the number of (positive, negative) score pairs with the
positive strictly greater, divided by the number of pairs; 0.5 when either
list is empty. Scores are modelled as rationals. -/
def computeAuc (posScores negScores : List ℚ) : ℚ :=
  let nComparisons := posScores.length * negScores.length
  if nComparisons = 0 then 1 / 2
  else
    ((((posScores.product negScores).map
        (fun pn => if pn.2 < pn.1 then (1 : ℕ) else 0)).sum : ℕ) : ℚ) / (nComparisons : ℚ)

/-- The number of pairs (p, n) with `p` from `posScores`, `n` from
`negScores` and `p > n` — the count the spec describes. -/
def pairCount (posScores negScores : List ℚ) : ℕ :=
  (posScores.product negScores).countP (fun pn => pn.2 < pn.1)

/-- The method-selection logic of `find_candidates`: `"auto"` resolves to
`"similarity"` when there are fewer than 5 valid positive samples and to
`"classifier"` otherwise; explicit names pass through. -/
def chooseMethod (method : String) (nPos : ℕ) : String :=
  if method = ("auto") then
    (if nPos < 5 then ("similarity") else ("classifier"))
  else method

/-! ### Lemmas about the batch decomposition -/

theorem chunksAux_flatten {α : Type*} (b : ℕ) (hb : 1 ≤ b) :
    ∀ (fuel : ℕ) (xs : List α), xs.length ≤ fuel → (chunksAux b fuel xs).flatten = xs := by
  intro fuel
  induction fuel with
  | zero =>
    intro xs h
    have : xs = [] := List.eq_nil_of_length_eq_zero (Nat.le_zero.mp h)
    subst this
    simp [chunksAux]
  | succ f ih =>
    intro xs h
    match xs with
    | [] => simp [chunksAux]
    | x :: t =>
      have ht : t.length + 1 ≤ f + 1 := by
        simpa using h
      have hlen : ((x :: t).drop b).length ≤ f := by
        simp only [List.length_drop, List.length_cons]
        omega
      simp only [chunksAux, List.flatten_cons, ih _ hlen, List.take_append_drop]

theorem chunks_flatten {α : Type*} (b : ℕ) (hb : 1 ≤ b) (xs : List α) :
    (chunks b xs).flatten = xs :=
  chunksAux_flatten b hb xs.length xs le_rfl

theorem chunks_map_flatten {α β : Type*} (b : ℕ) (hb : 1 ≤ b) (f : α → β) (xs : List α) :
    ((chunks b xs).map (List.map f)).flatten = xs.map f := by
  rw [← List.map_flatten, chunks_flatten b hb]

/-! ### Lemmas about vector norms -/

theorem norm2_nonneg {d : ℕ} (x : Vec d) : 0 ≤ norm2 x := Real.sqrt_nonneg _

theorem abs_dot_le {d : ℕ} (x y : Vec d) : |dot x y| ≤ norm2 x * norm2 y := by
  have h1 := Real.sum_mul_le_sqrt_mul_sqrt Finset.univ x y
  have h2 := Real.sum_mul_le_sqrt_mul_sqrt Finset.univ (fun j => -x j) y
  simp only [neg_mul, Finset.sum_neg_distrib, neg_sq] at h2
  rw [abs_le]
  constructor
  · unfold dot norm2
    linarith
  · exact h1

theorem norm2_div_const {d : ℕ} (x : Vec d) (c : ℝ) :
    norm2 (fun j => x j / c) = |c|⁻¹ * norm2 x := by
  unfold norm2
  have : ∀ j : Fin d, (x j / c) ^ 2 = c⁻¹ ^ 2 * (x j) ^ 2 := by
    intro j
    rw [div_eq_inv_mul, mul_pow]
  simp only [this]
  rw [← Finset.mul_sum, Real.sqrt_mul (sq_nonneg _), Real.sqrt_sq_eq_abs, abs_inv]

theorem norm2_unitize_le_one {d : ℕ} (x : Vec d) : norm2 (unitize x) ≤ 1 := by
  unfold unitize
  by_cases h : norm2 x = 0
  · simp only [h, if_pos]
    rw [norm2_div_const]
    simp [h]
  · rw [if_neg h, norm2_div_const, abs_of_nonneg (norm2_nonneg x),
      inv_mul_cancel₀ h]

theorem norm2_div_norm2_le_one {d : ℕ} (x : Vec d) :
    norm2 (fun j => x j / norm2 x) ≤ 1 := by
  by_cases h : norm2 x = 0
  · rw [norm2_div_const, abs_of_nonneg (norm2_nonneg x), h]
    simp
  · rw [norm2_div_const, abs_of_nonneg (norm2_nonneg x), inv_mul_cancel₀ h]

/-! ### The cosine branch of `SimilarityMethod.predict` is a per-row map -/

theorem simBatch_cosine {d : ℕ} (s : SimState d) (hm : s.metric = ("cosine"))
    (batch : List (Vec d)) : simBatch s batch = batch.map (cosineRow s) := by
  unfold simBatch
  rw [if_pos hm, List.map_map]
  rfl

theorem simPredict_cosine_eq_map {d : ℕ} (s : SimState d) (hm : s.metric = ("cosine"))
    (X : List (Vec d)) (b : ℕ) (hb : 1 ≤ b) :
    simPredict s X b = X.map (cosineRow s) := by
  unfold simPredict
  have : (chunks b X).map (simBatch s) = (chunks b X).map (List.map (cosineRow s)) :=
    List.map_congr_left fun c _ => simBatch_cosine s hm c
  rw [this, chunks_map_flatten b hb]

/-- C4: for every fitted cosine-variant `SimilarityMethod`, every input array
of embeddings, and every two batch sizes between 1 and the input length,
`predict` returns the same score vector for both batch sizes: batching does
not change the output of the cosine variant. -/
theorem cosine_batching_invariant {d : ℕ} (s : SimState d) (hm : s.metric = ("cosine"))
    (X : List (Vec d)) (b1 b2 : ℕ) (hb1 : 1 ≤ b1) (_hb1 : b1 ≤ X.length)
    (hb2 : 1 ≤ b2) (_hb2 : b2 ≤ X.length) :
    simPredict s X b1 = simPredict s X b2 := by
  rw [simPredict_cosine_eq_map s hm X b1 hb1, simPredict_cosine_eq_map s hm X b2 hb2]

/-- Witness for C4 at a concrete fitted state and two-row input, with batch
sizes 1 and 2. -/
theorem cosine_batching_invariant_witness :
    (simFit ("cosine") [vzero 1]).metric = ("cosine") ∧ 1 ≤ 1 ∧ 1 ≤ 2 ∧
    simPredict (simFit ("cosine") [vzero 1]) [vzero 1, vzero 1] 1 =
      simPredict (simFit ("cosine") [vzero 1]) [vzero 1, vzero 1] 2 :=
  ⟨rfl, le_refl 1, one_le_two,
    cosine_batching_invariant (simFit ("cosine") [vzero 1]) rfl [vzero 1, vzero 1] 1 2
      (le_refl 1) (by simp) one_le_two (by simp)⟩

/-! ### Score bounds: every predicted score lies in [0, 1] -/

theorem foldr_max_nonneg (l : List ℝ) : 0 ≤ l.foldr max 0 := by
  induction l with
  | nil => exact le_refl 0
  | cons a t ih => exact ih.trans (le_max_right a _)

theorem le_foldr_max (l : List ℝ) (x : ℝ) (hx : x ∈ l) : x ≤ l.foldr max 0 := by
  induction l with
  | nil => cases hx
  | cons a t ih =>
    rcases List.mem_cons.mp hx with h | h
    · subst h
      exact le_max_left x _
    · exact (ih h).trans (le_max_right a _)

theorem cosineRow_bounds {d : ℕ} (s : SimState d) (hc : norm2 s.centroid ≤ 1) (x : Vec d) :
    0 ≤ cosineRow s x ∧ cosineRow s x ≤ 1 := by
  have hu := norm2_unitize_le_one (standardizeWith s.mean s.scale x)
  have habs := abs_dot_le (unitize (standardizeWith s.mean s.scale x)) s.centroid
  have h1 : |dot (unitize (standardizeWith s.mean s.scale x)) s.centroid| ≤ 1 :=
    habs.trans (mul_le_one₀ hu (norm2_nonneg _) hc)
  have h2 := abs_le.mp h1
  unfold cosineRow
  constructor <;> [linarith [h2.1]; linarith [h2.2]]

theorem simFit_centroid_norm_le {d : ℕ} (metric : String) (hm : metric = ("cosine"))
    (pos : List (Vec d)) : norm2 (simFit metric pos).centroid ≤ 1 := by
  subst hm
  simp only [simFit, if_true]
  exact norm2_div_norm2_le_one _

theorem simBatch_bounds {d : ℕ} (s : SimState d)
    (hc : s.metric = ("cosine") → norm2 s.centroid ≤ 1) (batch : List (Vec d)) :
    ∀ y ∈ simBatch s batch, 0 ≤ y ∧ y ≤ 1 := by
  intro y hy
  by_cases hm : s.metric = ("cosine")
  · rw [simBatch_cosine s hm] at hy
    obtain ⟨x, _, rfl⟩ := List.mem_map.mp hy
    exact cosineRow_bounds s (hc hm) x
  · simp only [simBatch, if_neg hm] at hy
    obtain ⟨dd, hdd, rfl⟩ := List.mem_map.mp hy
    have hdd0 : 0 ≤ dd := by
      obtain ⟨x, _, rfl⟩ := List.mem_map.mp hdd
      exact norm2_nonneg _
    have hddmax := le_foldr_max _ dd hdd
    by_cases hmx :
        0 < ((batch.map (standardizeWith s.mean s.scale)).map
          (fun x => norm2 (vsub x s.centroid))).foldr max 0
    · rw [if_pos hmx]
      have hq1 : dd / _ ≤ 1 := (div_le_one hmx).mpr hddmax
      have hq0 : 0 ≤ dd / _ := div_nonneg hdd0 hmx.le
      constructor <;> [linarith; linarith]
    · rw [if_neg hmx]
      have h0 := foldr_max_nonneg ((batch.map (standardizeWith s.mean s.scale)).map
        (fun x => norm2 (vsub x s.centroid)))
      have : dd = 0 := le_antisymm (by linarith [hddmax, not_lt.mp hmx]) hdd0
      rw [this]
      norm_num

theorem sum_map_filter_le {α : Type*} (q : α → Bool) (f : α → ℝ) (l : List α)
    (hf : ∀ p ∈ l, 0 ≤ f p) :
    ((l.filter q).map f).sum ≤ (l.map f).sum := by
  induction l with
  | nil => simp
  | cons a t ih =>
    have hat : ∀ p ∈ t, 0 ≤ f p := fun p hp => hf p (List.mem_cons_of_mem a hp)
    have hfa : 0 ≤ f a := hf a (List.mem_cons_self a t)
    simp only [List.filter_cons]
    by_cases hqa : q a = true
    · rw [if_pos hqa]
      simp only [List.map_cons, List.sum_cons]
      exact add_le_add_left (ih hat) _
    · rw [if_neg hqa]
      simp only [List.map_cons, List.sum_cons]
      linarith [ih hat]

theorem weight_frac_bounds (sel : List (ℝ × Bool)) (w : ℝ × Bool → ℝ)
    (hw : ∀ p ∈ sel, 0 ≤ w p) :
    0 ≤ ((sel.filter (fun p => p.2)).map w).sum / ((sel.map w).sum) ∧
      ((sel.filter (fun p => p.2)).map w).sum / ((sel.map w).sum) ≤ 1 := by
  have hnum : 0 ≤ ((sel.filter (fun p => p.2)).map w).sum := by
    apply List.sum_nonneg
    intro x hx
    obtain ⟨p, hp, rfl⟩ := List.mem_map.mp hx
    exact hw p (List.mem_of_mem_filter hp)
  have hden : 0 ≤ (sel.map w).sum := by
    apply List.sum_nonneg
    intro x hx
    obtain ⟨p, hp, rfl⟩ := List.mem_map.mp hx
    exact hw p hp
  have hle := sum_map_filter_le (fun p => p.2) w sel hw
  rcases eq_or_lt_of_le hden with h0 | h0
  · rw [← h0, div_zero]
    exact ⟨le_refl 0, zero_le_one⟩
  · exact ⟨div_nonneg hnum hden, (div_le_one h0).mpr hle⟩

theorem knnProbRow_bounds {d : ℕ} (st : ClsState d) (x : Vec d) :
    0 ≤ knnProbRow st x ∧ knnProbRow st x ≤ 1 := by
  simp only [knnProbRow]
  apply weight_frac_bounds
  intro p hp
  have hp1 : 0 ≤ p.1 := by
    have hmem : p ∈ st.train.map
        (fun pr => (norm2 (vsub (standardizeWith st.mean st.scale x) pr.1), pr.2)) :=
      (List.mem_insertionSort _).mp (List.take_subset _ _ hp)
    obtain ⟨pr, _, rfl⟩ := List.mem_map.mp hmem
    exact norm2_nonneg _
  by_cases hz : ∃ r ∈ (List.insertionSort (fun a b : ℝ × Bool => a.1 ≤ b.1)
      (st.train.map (fun pr =>
        (norm2 (vsub (standardizeWith st.mean st.scale x) pr.1), pr.2)))).take st.k, r.1 = 0
  · rw [if_pos hz]
    by_cases hp0 : p.1 = 0
    · rw [if_pos hp0]
      exact zero_le_one
    · rw [if_neg hp0]
  · rw [if_neg hz]
    exact inv_nonneg.mpr hp1

/-- Model-level bound: with total real division (0/0 = 0) standing in for
the unguarded float division of `methods.py` line 92, every predicted score
lies in [0, 1]. This is true of the program for the classifier and for the
euclidean similarity variant; for the cosine variant the real program can
instead produce NaN scores, because the model collapses the NaN centroid to
the zero vector — see `cosine_fit_divides_by_zero_norm`. -/
theorem predict_scores_unit_interval {d : ℕ} :
    (∀ (metric : String) (pos X : List (Vec d)) (b : ℕ),
        1 ≤ b → b ≤ X.length →
        ∀ y ∈ simPredict (simFit metric pos) X b, 0 ≤ y ∧ y ≤ 1) ∧
    (∀ (nn : ℕ) (pos neg X : List (Vec d)) (b : ℕ),
        1 ≤ b → b ≤ X.length →
        ∀ y ∈ clsPredict (clsFit nn pos neg) X b, 0 ≤ y ∧ y ≤ 1) := by
  constructor
  · intro metric pos X b _ _ y hy
    obtain ⟨l, hl, hyl⟩ := List.mem_flatten.mp hy
    obtain ⟨c, _, rfl⟩ := List.mem_map.mp hl
    refine simBatch_bounds (simFit metric pos) (fun hm => ?_) c y hyl
    exact simFit_centroid_norm_le metric hm pos
  · intro nn pos neg X b _ _ y hy
    obtain ⟨l, hl, hyl⟩ := List.mem_flatten.mp hy
    obtain ⟨c, _, rfl⟩ := List.mem_map.mp hl
    obtain ⟨x, _, rfl⟩ := List.mem_map.mp hyl
    exact knnProbRow_bounds (clsFit nn pos neg) x

/-- Concrete evaluation: the cosine similarity score of the all-zero
1-dimensional example is 1/2. -/
theorem simPredict_eval :
    simPredict (simFit ("cosine") [vzero 1]) [vzero 1] 1 = [1 / 2] := by
  simp [simPredict, chunks, chunksAux, simBatch, simFit, listMean, listScale,
    standardizeWith, unitize, dot, norm2, vzero]

/-- Concrete evaluation: the classifier posterior of the all-zero
1-dimensional example, trained on two zero positives, is 1. -/
theorem clsPredict_eval :
    clsPredict (clsFit 10 [vzero 1, vzero 1] []) [vzero 1] 1 = [1] := by
  simp [clsPredict, chunks, chunksAux, clsBatch, clsFit, knnProbRow, listMean, listScale,
    standardizeWith, vsub, norm2, vzero, List.insertionSort, List.orderedInsert]

/-- Concrete instantiation of the model-level score bound. -/
theorem predict_scores_unit_interval_witness :
    1 ≤ 1 ∧ 1 ≤ ([vzero 1] : List (Vec 1)).length ∧
    (0 ≤ (1 / 2 : ℝ) ∧ (1 / 2 : ℝ) ≤ 1) ∧ (0 ≤ (1 : ℝ) ∧ (1 : ℝ) ≤ 1) :=
  ⟨le_refl 1, by simp,
    predict_scores_unit_interval.1 ("cosine") [vzero 1] [vzero 1] 1 (le_refl 1) (by simp)
      (1 / 2) (by rw [simPredict_eval]; exact List.mem_singleton.mpr rfl),
    predict_scores_unit_interval.2 10 [vzero 1, vzero 1] [] [vzero 1] 1 (le_refl 1) (by simp)
      1 (by rw [clsPredict_eval]; exact List.mem_singleton.mpr rfl)⟩

/-! ### The unguarded centroid normalization of the cosine fit -/

theorem sum_map_div {α : Type*} (l : List α) (f : α → ℝ) (c : ℝ) :
    (l.map fun v => f v / c).sum = (l.map f).sum / c := by
  induction l with
  | nil => simp
  | cons a t ih =>
    simp only [List.map_cons, List.sum_cons, ih]
    rw [div_add_div_same]

theorem sum_map_sub_const {α : Type*} (l : List α) (f : α → ℝ) (c : ℝ) :
    (l.map fun v => f v - c).sum = (l.map f).sum - l.length * c := by
  induction l with
  | nil => simp
  | cons a t ih =>
    simp only [List.map_cons, List.sum_cons, ih, List.length_cons]
    push_cast
    ring

/-- The mean of the positives standardized by a scaler fitted on those same
positives is identically the zero vector: per feature, the scaler subtracts
exactly the mean of the values it then averages. -/
theorem standardized_mean_zero {d : ℕ} (pos : List (Vec d)) :
    listMean (pos.map (standardizeWith (listMean pos) (listScale pos))) = vzero d := by
  funext j
  simp only [listMean, vzero, List.map_map, List.length_map]
  show ((pos.map fun v => (v j - listMean pos j) / listScale pos j).sum) /
      (pos.length : ℝ) = 0
  rw [sum_map_div pos (fun v => v j - listMean pos j) (listScale pos j),
    sum_map_sub_const pos (fun v => v j) (listMean pos j)]
  by_cases hp : pos = []
  · subst hp
    simp
  · have hn : (pos.length : ℝ) ≠ 0 := by
      simpa using fun h => hp (List.eq_nil_of_length_eq_zero h)
    simp only [listMean]
    have hcanc : (pos.length : ℝ) * ((pos.map fun v => v j).sum / (pos.length : ℝ)) =
        (pos.map fun v => v j).sum := by
      field_simp
    rw [hcanc, sub_self, zero_div, zero_div]

/-- C5 (code bug): the claim that every score returned by `predict` lies in
[0, 1] is the documented intent (the base-class docstring and the spec), but
the cosine branch of `SimilarityMethod.fit` divides the centroid by its norm
with no zero-norm guard (`methods.py` line 92, unlike the guard `predict`
itself applies at line 116). The divisor is the norm of the mean of the
standardized positives, which this theorem proves is identically zero — so
the program computes 0/0 there. In floating point the cancellation is exact
for a single positive (a case `fit` accepts), giving a NaN centroid and NaN
`predict` scores, which are not in [0, 1]. The second conjunct records how
the total-division model (0/0 = 0) collapses that NaN path to the zero
centroid. -/
theorem cosine_fit_divides_by_zero_norm {d : ℕ} :
    (∀ pos : List (Vec d),
      norm2 (listMean (pos.map (standardizeWith (listMean pos) (listScale pos)))) = 0) ∧
    (∀ pos : List (Vec d), (simFit ("cosine") pos).centroid = vzero d) := by
  constructor
  · intro pos
    rw [standardized_mean_zero]
    simp [norm2, vzero]
  · intro pos
    simp only [simFit, if_true]
    funext j
    rw [standardized_mean_zero pos]
    simp [vzero]

/-- C10: for every fitted cosine-variant `SimilarityMethod`, any query row
whose standardized form is the zero vector receives a score of exactly 0.5
from `predict`: the zero-norm guard substitutes norm 1, the dot product with
the centroid is 0, and the affine remap yields 1/2. -/
theorem zero_standardized_row_scores_half {d : ℕ} (s : SimState d)
    (hm : s.metric = ("cosine")) (X : List (Vec d)) (b i : ℕ) (hb : 1 ≤ b)
    (hi : i < X.length)
    (hq : standardizeWith s.mean s.scale (X.get ⟨i, hi⟩) = vzero d) :
    ∃ hl : i < (simPredict s X b).length, (simPredict s X b).get ⟨i, hl⟩ = 1 / 2 := by
  rw [simPredict_cosine_eq_map s hm X b hb]
  have hi' : i < (X.map (cosineRow s)).length := by simpa using hi
  refine ⟨hi', ?_⟩
  rw [List.get_map]
  show cosineRow s (X.get ⟨i, hi⟩) = 1 / 2
  unfold cosineRow
  rw [hq]
  have hz : unitize (vzero d) = vzero d := by
    funext j
    simp [unitize, vzero]
  rw [hz]
  have hdot : dot (vzero d) s.centroid = 0 := by
    simp [dot, vzero]
  rw [hdot]
  norm_num

/-- Witness for C10 at a concrete fitted state whose training row (the zero
vector) standardizes to zero. -/
theorem zero_standardized_row_scores_half_witness :
    (simFit ("cosine") [vzero 1]).metric = ("cosine") ∧ 1 ≤ 1 ∧
    (0 : ℕ) < ([vzero 1] : List (Vec 1)).length ∧
    (∃ hl : 0 < (simPredict (simFit ("cosine") [vzero 1]) [vzero 1] 1).length,
      (simPredict (simFit ("cosine") [vzero 1]) [vzero 1] 1).get ⟨0, hl⟩ = 1 / 2) :=
  ⟨rfl, le_refl 1, by simp,
    zero_standardized_row_scores_half (simFit ("cosine") [vzero 1]) rfl [vzero 1] 1 0
      (le_refl 1) (by simp)
      (by funext j; simp [simFit, listMean, listScale, standardizeWith, vzero])⟩

/-! ### The AUC estimator -/

theorem sum_ite_eq_countP {α : Type*} (p : α → Prop) [DecidablePred p] (l : List α) :
    (l.map (fun x => if p x then (1 : ℕ) else 0)).sum = l.countP (fun x => decide (p x)) := by
  induction l with
  | nil => rfl
  | cons a t ih =>
    simp only [List.map_cons, List.sum_cons, List.countP_cons, ih]
    by_cases h : p a
    · simp [h, Nat.add_comm]
    · simp [h]

/-- C3: the function `compute_auc` equals the number of (positive, negative) pairs with
the positive strictly greater, divided by the number of pairs, and equals
0.5 when either list is empty; in particular the two spec examples hold. -/
theorem computeAuc_spec :
    (∀ posScores negScores : List ℚ, posScores ≠ [] → negScores ≠ [] →
      computeAuc posScores negScores =
        (pairCount posScores negScores : ℚ) /
          ((posScores.length : ℚ) * (negScores.length : ℚ))) ∧
    (∀ posScores negScores : List ℚ, posScores = [] ∨ negScores = [] →
      computeAuc posScores negScores = 1 / 2) ∧
    computeAuc [9 / 10, 8 / 10] [1 / 10, 2 / 10] = 1 ∧
    computeAuc [1 / 10] [9 / 10] = 0 := by
  refine ⟨?_, ?_, ?_, ?_⟩
  · intro pos neg hp hn
    have h1 : pos.length ≠ 0 := fun h => hp (List.eq_nil_of_length_eq_zero h)
    have h2 : neg.length ≠ 0 := fun h => hn (List.eq_nil_of_length_eq_zero h)
    unfold computeAuc
    rw [if_neg (Nat.mul_ne_zero h1 h2)]
    rw [sum_ite_eq_countP (fun pn : ℚ × ℚ => pn.2 < pn.1)]
    unfold pairCount
    push_cast
    rfl
  · intro pos neg h
    rcases h with h | h <;> subst h <;> simp [computeAuc]
  · norm_num [computeAuc, List.product, List.flatMap]
  · norm_num [computeAuc, List.product, List.flatMap]

/-- Witness for C3 at concrete non-empty score lists. -/
theorem computeAuc_spec_witness :
    ([1] : List ℚ) ≠ [] ∧ ([0] : List ℚ) ≠ [] ∧
    computeAuc [1] [0] =
      (pairCount [1] [0] : ℚ) / ((([1] : List ℚ).length : ℚ) * (([0] : List ℚ).length : ℚ)) :=
  ⟨by decide, by decide, computeAuc_spec.1 [1] [0] (by decide) (by decide)⟩

/-! ### Training-size selection of the validation harness -/

/-- C2 (failing input): with 30 valid occurrences, the training size 20
leaves exactly 10 held-out test positives, yet `run_species_experiment`
skips it (`n_pos >= n_total - 10`), contradicting the rule of at least 10
held-out test positives stated by the spec and by the code comment. -/
theorem trainingSize_boundary_skipped :
    (10 : ℤ) ≤ 30 - 20 ∧ (20 : ℤ) ∈ nPositiveValues ∧
    (20 : ℤ) ∉ selectedSizes 30 ∧ selectedSizes 30 = [1, 2, 5, 10] := by
  refine ⟨by decide, by decide, by decide, by decide⟩

/-! ### Auto method selection -/

/-- C9: with `method="auto"`, `find_candidates` selects Similarity iff the
number of valid positive samples is strictly below 5, and Classifier iff it
is 5 or more. -/
theorem auto_method_selection (n : ℕ) :
    (chooseMethod ("auto") n = ("similarity") ↔ n < 5) ∧
    (chooseMethod ("auto") n = ("classifier") ↔ 5 ≤ n) := by
  unfold chooseMethod
  rw [if_pos rfl]
  by_cases h : n < 5
  · rw [if_pos h]
    exact ⟨iff_of_true rfl h, iff_of_false (by decide) (by omega)⟩
  · rw [if_neg h]
    exact ⟨iff_of_false (by decide) h, iff_of_true rfl (not_lt.mp h)⟩

/-- Witness for C9 on both sides of the threshold. -/
theorem auto_method_selection_witness :
    chooseMethod ("auto") 4 = ("similarity") ∧ chooseMethod ("auto") 5 = ("classifier") :=
  ⟨(auto_method_selection 4).1.mpr (by decide), (auto_method_selection 5).2.mpr (by decide)⟩

/-! ### Unfit predict and fit guards -/

/-- C7: calling `predict` on an unfit `SimilarityMethod` or
`ClassifierMethod` yields the "Must call fit() first" error, not a score
vector, and leaves the instance state unchanged. -/
theorem unfit_predict_is_error {d : ℕ} :
    (∀ (metric : String) (X : List (Vec d)) (b : ℕ),
      simPredictE (simNew d metric) X b =
        (Except.error ("Must call fit() first"), simNew d metric)) ∧
    (∀ (nn : ℕ) (X : List (Vec d)) (b : ℕ),
      clsPredictE (clsNew d nn) X b =
        (Except.error ("Must call fit() first"), clsNew d nn)) :=
  ⟨fun _ _ _ => rfl, fun _ _ _ => rfl⟩

/-- C8: `SimilarityMethod.fit` errors exactly on zero positives and succeeds
on any non-empty positive set; `ClassifierMethod.fit` errors whenever given
fewer than 2 positives and succeeds on 2 or more (with negatives supplied). -/
theorem fit_guards {d : ℕ} :
    (∀ m : SimMethodData d,
      simFitE m [] = Except.error ("Need at least 1 positive sample")) ∧
    (∀ (m : SimMethodData d) (pos : List (Vec d)), pos ≠ [] →
      ∃ mf, simFitE m pos = Except.ok mf) ∧
    (∀ (m : ClsMethodData d) (pos : List (Vec d)) (negOpt : Option (List (Vec d))),
      pos.length < 2 →
      clsFitE m pos negOpt =
        Except.error ("Classifier method needs at least 2 positive samples")) ∧
    (∀ (m : ClsMethodData d) (pos neg : List (Vec d)), 2 ≤ pos.length →
      ∃ mf, clsFitE m pos (some neg) = Except.ok mf) := by
  refine ⟨fun m => rfl, ?_, ?_, ?_⟩
  · intro m pos hne
    refine ⟨⟨m.metric, some (simFit m.metric pos)⟩, ?_⟩
    unfold simFitE
    rw [if_neg (by simpa [List.length_eq_zero] using hne)]
  · intro m pos negOpt h
    unfold clsFitE
    rw [if_pos h]
  · intro m pos neg h
    refine ⟨⟨m.nNeighbors, some (clsFit m.nNeighbors pos neg)⟩, ?_⟩
    unfold clsFitE
    rw [if_neg (by omega)]

/-- Witness for C8 at concrete positive sets of sizes 1 and 2. -/
theorem fit_guards_witness :
    (([vzero 1] : List (Vec 1)) ≠ [] ∧
      ∃ mf, simFitE (simNew 1 ("cosine")) [vzero 1] = Except.ok mf) ∧
    (([vzero 1] : List (Vec 1)).length < 2 ∧
      clsFitE (clsNew 1 10) [vzero 1] none =
        Except.error ("Classifier method needs at least 2 positive samples")) ∧
    (2 ≤ ([vzero 1, vzero 1] : List (Vec 1)).length ∧
      ∃ mf, clsFitE (clsNew 1 10) [vzero 1, vzero 1] (some []) = Except.ok mf) :=
  ⟨⟨by simp, fit_guards.2.1 (simNew 1 ("cosine")) [vzero 1] (by simp)⟩,
   ⟨by simp, fit_guards.2.2.1 (clsNew 1 10) [vzero 1] none (by simp)⟩,
   ⟨by simp, fit_guards.2.2.2 (clsNew 1 10) [vzero 1, vzero 1] [] (by simp)⟩⟩

/-! ### The spatial negative sampler -/

theorem genNegAux_zero (pos : List (ℝ × ℝ)) (md : ℝ) (n : ℕ) (draws acc : List (ℝ × ℝ)) :
    genNegAux pos md n 0 draws acc = acc.reverse := rfl

theorem genNegAux_nil (pos : List (ℝ × ℝ)) (md : ℝ) (n fuel : ℕ) (acc : List (ℝ × ℝ)) :
    genNegAux pos md n (fuel + 1) [] acc = acc.reverse := rfl

theorem genNegAux_step (pos : List (ℝ × ℝ)) (md : ℝ) (n fuel : ℕ) (dr : ℝ × ℝ)
    (rest acc : List (ℝ × ℝ)) :
    genNegAux pos md n (fuel + 1) (dr :: rest) acc =
      if n ≤ acc.length then acc.reverse
      else if minDistTo pos dr > md then genNegAux pos md n fuel rest (dr :: acc)
      else genNegAux pos md n fuel rest acc := rfl

theorem sbpAux_zero {d : ℕ} (emb : ℕ × ℕ → Vec d) (n : ℕ) (draws : List (ℕ × ℕ))
    (excl : Finset (ℕ × ℕ)) (acc : List (ℕ × ℕ)) :
    sbpAux emb n 0 draws excl acc = acc.reverse := rfl

theorem sbpAux_nil {d : ℕ} (emb : ℕ × ℕ → Vec d) (n fuel : ℕ)
    (excl : Finset (ℕ × ℕ)) (acc : List (ℕ × ℕ)) :
    sbpAux emb n (fuel + 1) [] excl acc = acc.reverse := rfl

theorem sbpAux_step {d : ℕ} (emb : ℕ × ℕ → Vec d) (n fuel : ℕ) (dr : ℕ × ℕ)
    (rest : List (ℕ × ℕ)) (excl : Finset (ℕ × ℕ)) (acc : List (ℕ × ℕ)) :
    sbpAux emb n (fuel + 1) (dr :: rest) excl acc =
      if n ≤ acc.length then acc.reverse
      else if dr ∉ excl then
        (if emb dr ≠ vzero d then sbpAux emb n fuel rest (insert dr excl) (dr :: acc)
         else sbpAux emb n fuel rest excl acc)
      else sbpAux emb n fuel rest excl acc := rfl

theorem foldl_min_gt (p : ℝ × ℝ) (t : ℝ) :
    ∀ (l : List (ℝ × ℝ)) (a : ℝ),
      t < l.foldl (fun acc r => min acc (euclDist r p)) a ↔
        t < a ∧ ∀ r ∈ l, t < euclDist r p := by
  intro l
  induction l with
  | nil => intro a; simp
  | cons r rest ih =>
    intro a
    simp only [List.foldl_cons]
    rw [ih (min a (euclDist r p)), lt_min_iff]
    constructor
    · rintro ⟨⟨h1, h2⟩, h3⟩
      refine ⟨h1, fun x hx => ?_⟩
      rcases List.mem_cons.mp hx with h | h
      · subst h; exact h2
      · exact h3 x h
    · rintro ⟨h1, h2⟩
      exact ⟨⟨h1, h2 r (List.mem_cons_self r rest)⟩,
        fun x hx => h2 x (List.mem_cons_of_mem r hx)⟩

theorem minDistTo_gt_iff (pos : List (ℝ × ℝ)) (hpos : pos ≠ []) (p : ℝ × ℝ) (t : ℝ) :
    minDistTo pos p > t ↔ ∀ q ∈ pos, euclDist q p > t := by
  match pos with
  | [] => exact absurd rfl hpos
  | q :: rest =>
    show t < _ ↔ _
    unfold minDistTo
    rw [foldl_min_gt p t rest (euclDist q p), List.forall_mem_cons]

theorem genNegAux_mem (pos : List (ℝ × ℝ)) (md : ℝ) (n : ℕ) :
    ∀ (fuel : ℕ) (draws acc : List (ℝ × ℝ)) (p : ℝ × ℝ),
      p ∈ genNegAux pos md n fuel draws acc →
      p ∈ acc ∨ (p ∈ draws ∧ minDistTo pos p > md) := by
  intro fuel
  induction fuel with
  | zero =>
    intro draws acc p hp
    rw [genNegAux_zero] at hp
    left
    simpa using hp
  | succ f ih =>
    intro draws acc p hp
    match draws with
    | [] =>
      rw [genNegAux_nil] at hp
      left
      simpa using hp
    | dr :: rest =>
      by_cases hstop : n ≤ acc.length
      · rw [genNegAux_step, if_pos hstop] at hp
        left
        simpa using hp
      · rw [genNegAux_step, if_neg hstop] at hp
        by_cases hacc : minDistTo pos dr > md
        · rw [if_pos hacc] at hp
          rcases ih rest (dr :: acc) p hp with h | h
          · rcases List.mem_cons.mp h with h' | h'
            · subst h'
              exact Or.inr ⟨List.mem_cons_self _ _, hacc⟩
            · exact Or.inl h'
          · exact Or.inr ⟨List.mem_cons_of_mem _ h.1, h.2⟩
        · rw [if_neg hacc] at hp
          rcases ih rest acc p hp with h | h
          · exact Or.inl h
          · exact Or.inr ⟨List.mem_cons_of_mem _ h.1, h.2⟩

theorem genNegAux_length (pos : List (ℝ × ℝ)) (md : ℝ) (n : ℕ) :
    ∀ (fuel : ℕ) (draws acc : List (ℝ × ℝ)), acc.length ≤ n →
      (genNegAux pos md n fuel draws acc).length ≤ n := by
  intro fuel
  induction fuel with
  | zero =>
    intro draws acc h
    rw [genNegAux_zero]
    simpa using h
  | succ f ih =>
    intro draws acc h
    match draws with
    | [] =>
      rw [genNegAux_nil]
      simpa using h
    | dr :: rest =>
      by_cases hstop : n ≤ acc.length
      · rw [genNegAux_step, if_pos hstop]
        simpa using h
      · rw [genNegAux_step, if_neg hstop]
        by_cases hacc : minDistTo pos dr > md
        · rw [if_pos hacc]
          refine ih rest (dr :: acc) ?_
          simp only [List.length_cons]
          omega
        · rw [if_neg hacc]
          exact ih rest acc h

theorem genNegAux_take (pos : List (ℝ × ℝ)) (md : ℝ) (n : ℕ) :
    ∀ (fuel : ℕ) (draws acc : List (ℝ × ℝ)),
      genNegAux pos md n fuel draws acc = genNegAux pos md n fuel (draws.take fuel) acc := by
  intro fuel
  induction fuel with
  | zero => intro draws acc; rfl
  | succ f ih =>
    intro draws acc
    match draws with
    | [] => rfl
    | dr :: rest =>
      rw [List.take_succ_cons]
      by_cases hstop : n ≤ acc.length
      · rw [genNegAux_step, if_pos hstop, genNegAux_step, if_pos hstop]
      · rw [genNegAux_step, if_neg hstop, genNegAux_step, if_neg hstop]
        by_cases hacc : minDistTo pos dr > md
        · rw [if_pos hacc, if_pos hacc, ih rest (dr :: acc)]
        · rw [if_neg hacc, if_neg hacc, ih rest acc]

/-- C6: with a non-empty positive set, every coordinate the spatial sampler
returns came from the draw stream (hence lies inside the bounding box the
draws were taken from) and is strictly farther than `min_negative_distance`
from every positive; at most `n_samples` coordinates are returned; and only
the first `n_samples * 100` draws (attempts) are ever consumed. -/
theorem generate_negatives_spec (pos : List (ℝ × ℝ)) (minDist : ℝ) (n : ℕ)
    (draws : List (ℝ × ℝ)) (minLon minLat maxLon maxLat : ℝ) (hpos : pos ≠ [])
    (hdraws : ∀ p ∈ draws, minLon ≤ p.1 ∧ p.1 ≤ maxLon ∧ minLat ≤ p.2 ∧ p.2 ≤ maxLat) :
    (∀ p ∈ genNegatives pos minDist n draws,
        (minLon ≤ p.1 ∧ p.1 ≤ maxLon ∧ minLat ≤ p.2 ∧ p.2 ≤ maxLat) ∧
          ∀ q ∈ pos, euclDist q p > minDist) ∧
      (genNegatives pos minDist n draws).length ≤ n ∧
      genNegatives pos minDist n draws = genNegatives pos minDist n (draws.take (n * 100)) := by
  refine ⟨?_, ?_, ?_⟩
  · intro p hp
    rcases genNegAux_mem pos minDist n (n * 100) draws [] p hp with h | h
    · cases h
    · exact ⟨hdraws p h.1, (minDistTo_gt_iff pos hpos p minDist).mp h.2⟩
  · exact genNegAux_length pos minDist n (n * 100) draws [] (by simp)
  · exact genNegAux_take pos minDist n (n * 100) draws []

/-- Witness for C6: one positive at the origin, one in-bbox draw. -/
theorem generate_negatives_spec_witness :
    (([((0 : ℝ), (0 : ℝ))] : List (ℝ × ℝ)) ≠ []) ∧
    (∀ p ∈ ([((1 : ℝ), (1 : ℝ))] : List (ℝ × ℝ)),
      (0 : ℝ) ≤ p.1 ∧ p.1 ≤ 2 ∧ (0 : ℝ) ≤ p.2 ∧ p.2 ≤ 2) ∧
    ((∀ p ∈ genNegatives [((0 : ℝ), (0 : ℝ))] (5 / 1000) 1 [((1 : ℝ), (1 : ℝ))],
        ((0 : ℝ) ≤ p.1 ∧ p.1 ≤ 2 ∧ (0 : ℝ) ≤ p.2 ∧ p.2 ≤ 2) ∧
          ∀ q ∈ ([((0 : ℝ), (0 : ℝ))] : List (ℝ × ℝ)), euclDist q p > 5 / 1000) ∧
      (genNegatives [((0 : ℝ), (0 : ℝ))] (5 / 1000) 1 [((1 : ℝ), (1 : ℝ))]).length ≤ 1 ∧
      genNegatives [((0 : ℝ), (0 : ℝ))] (5 / 1000) 1 [((1 : ℝ), (1 : ℝ))] =
        genNegatives [((0 : ℝ), (0 : ℝ))] (5 / 1000) 1
          ([((1 : ℝ), (1 : ℝ))].take (1 * 100))) :=
  ⟨by simp, by simp,
    generate_negatives_spec [((0 : ℝ), (0 : ℝ))] (5 / 1000) 1 [((1 : ℝ), (1 : ℝ))] 0 0 2 2
      (by simp) (by simp)⟩

/-! ### The grid background sampler: distinctness at pixel resolution -/

theorem sbpAux_nodup {d : ℕ} (emb : ℕ × ℕ → Vec d) (n : ℕ) :
    ∀ (fuel : ℕ) (draws : List (ℕ × ℕ)) (excl : Finset (ℕ × ℕ)) (acc : List (ℕ × ℕ)),
      acc.Nodup → (∀ a ∈ acc, a ∈ excl) → (sbpAux emb n fuel draws excl acc).Nodup := by
  intro fuel
  induction fuel with
  | zero =>
    intro _ _ acc hnd _
    rw [sbpAux_zero]
    simpa using hnd
  | succ f ih =>
    intro draws excl acc hnd hsub
    match draws with
    | [] =>
      rw [sbpAux_nil]
      simpa using hnd
    | dr :: rest =>
      by_cases hstop : n ≤ acc.length
      · rw [sbpAux_step, if_pos hstop]
        simpa using hnd
      · rw [sbpAux_step, if_neg hstop]
        by_cases hexcl : dr ∉ excl
        · rw [if_pos hexcl]
          by_cases hz : emb dr ≠ vzero d
          · rw [if_pos hz]
            apply ih
            · exact List.nodup_cons.mpr ⟨fun hmem => hexcl (hsub dr hmem), hnd⟩
            · intro a ha
              rcases List.mem_cons.mp ha with h | h
              · subst h
                exact Finset.mem_insert_self _ _
              · exact Finset.mem_insert_of_mem (hsub a h)
          · rw [if_neg hz]
            exact ih rest excl acc hnd hsub
        · rw [if_neg hexcl]
          exact ih rest excl acc hnd hsub

/-- C1 (amended): the grid variant `sample_background_points` returns
coordinates of pairwise-distinct pixels — each accepted pixel goes into the
exclusion set before further draws. (The spatial variant gives no such
guarantee; see the counterexample.) -/
theorem background_points_pixel_distinct {d : ℕ} (emb : ℕ × ℕ → Vec d)
    (c2p : ℝ × ℝ → ℕ × ℕ) (p2c : ℕ × ℕ → ℝ × ℝ) (n : ℕ)
    (excludeCoords : List (ℝ × ℝ)) (draws : List (ℕ × ℕ)) :
    (sampleBackgroundPoints emb c2p p2c n excludeCoords draws).2 =
        (sbpPixels emb c2p n excludeCoords draws).map p2c ∧
      (sbpPixels emb c2p n excludeCoords draws).Nodup :=
  ⟨rfl, sbpAux_nodup emb n (n * 10) draws (excludeCoords.map c2p).toFinset []
    List.nodup_nil (by simp)⟩

/-- C1 (counterexample): the spatial variant `_generate_negatives` adds
accepted samples to no exclusion set, so one call can return coinciding
coordinates. This run corresponds to the degenerate bounding box
`(1, 1, 1, 1)` — every uniform draw is `(1, 1)` — with a single positive at
the origin: both draws are accepted and the two returned negatives
coincide. -/
theorem spatial_negatives_can_coincide :
    genNegatives [((0 : ℝ), (0 : ℝ))] (5 / 1000) 2 [((1 : ℝ), (1 : ℝ)), ((1 : ℝ), (1 : ℝ))] =
        [((1 : ℝ), (1 : ℝ)), ((1 : ℝ), (1 : ℝ))] ∧
      ¬ (genNegatives [((0 : ℝ), (0 : ℝ))] (5 / 1000) 2
          [((1 : ℝ), (1 : ℝ)), ((1 : ℝ), (1 : ℝ))]).Nodup := by
  have hdist : minDistTo [((0 : ℝ), (0 : ℝ))] ((1 : ℝ), (1 : ℝ)) > 5 / 1000 := by
    have h2 : ((0 : ℝ) - 1) ^ 2 + ((0 : ℝ) - 1) ^ 2 = 2 := by norm_num
    have h1 : (1 : ℝ) ≤ Real.sqrt 2 := by
      rw [show (1 : ℝ) = Real.sqrt 1 from (Real.sqrt_one).symm]
      exact Real.sqrt_le_sqrt one_le_two
    show (5 : ℝ) / 1000 < _
    unfold minDistTo euclDist
    simp only [List.foldl_nil]
    rw [h2]
    linarith
  have h0 : ¬(2 ≤ List.length ([] : List (ℝ × ℝ))) := by simp
  have h1 : ¬(2 ≤ List.length [((1 : ℝ), (1 : ℝ))]) := by simp
  have key : ∀ f : ℕ,
      genNegAux [((0 : ℝ), (0 : ℝ))] (5 / 1000) 2 (f + 2)
          [((1 : ℝ), (1 : ℝ)), ((1 : ℝ), (1 : ℝ))] [] =
        [((1 : ℝ), (1 : ℝ)), ((1 : ℝ), (1 : ℝ))] := by
    intro f
    show genNegAux _ _ 2 ((f + 1) + 1) _ _ = _
    rw [genNegAux_step, if_neg h0, if_pos hdist, genNegAux_step, if_neg h1, if_pos hdist]
    cases f with
    | zero => rfl
    | succ f' => rfl
  have hfuel : (2 * 100 : ℕ) = 198 + 2 := by norm_num
  have heq : genNegatives [((0 : ℝ), (0 : ℝ))] (5 / 1000) 2
      [((1 : ℝ), (1 : ℝ)), ((1 : ℝ), (1 : ℝ))] =
      [((1 : ℝ), (1 : ℝ)), ((1 : ℝ), (1 : ℝ))] := by
    rw [genNegatives, hfuel, key 198]
  refine ⟨heq, ?_⟩
  rw [heq]
  simp

end PlantSearch
